import Mathlib

/-!
Shallow embedding of the crab/ikos interval abstract domain core:
extended bounds (ikos::bound), intervals (ikos::interval), the
non-relational separate domain (ikos::separate_domain) instantiated at
intervals, and the interval_domain operations, together with theorems
checking the specification claims against these definitions.
-/

namespace CrabIkos

/-- Shallow embedding of ikos::bound\<Number\>: a finite number or an
infinity with a sign.  The C++ representation is a pair
(is_infinite, n) where for infinite bounds n is normalized to the sign
±1; the three-constructor inductive carries exactly that information. -/
inductive EBound (α : Type) where
  | fin (n : α)
  | pinf
  | ninf
deriving DecidableEq, Repr

namespace EBound

variable {α : Type}

/-- Embedding of bound::is_infinite. -/
def isInf : EBound α → Bool
  | fin _ => false
  | pinf => true
  | ninf => true

/-- Embedding of bound::is_finite. -/
def isFin (b : EBound α) : Bool := !b.isInf

/-- Embedding of bound::number(): the finite value, if any. -/
def number : EBound α → Option α
  | fin n => some n
  | pinf => none
  | ninf => none

/-- Embedding of bound::operator-(): sign flip (bound(is_infinite, -n)). -/
def bneg [Neg α] : EBound α → EBound α
  | fin n => fin (-n)
  | pinf => ninf
  | ninf => pinf

variable [LinearOrder α]

/-- Embedding of the optimized bound::operator\<=.  The C++ code checks
is_infinite xor; if exactly one side is infinite the answer is the sign
of the infinite side; otherwise it compares the stored numbers (for two
infinities the stored numbers are the signs ±1). -/
def bLe : EBound α → EBound α → Bool
  | ninf, fin _ => true
  | pinf, fin _ => false
  | fin _, pinf => true
  | fin _, ninf => false
  | fin m, fin n => decide (m ≤ n)
  | pinf, pinf => true
  | ninf, ninf => true
  | ninf, pinf => true
  | pinf, ninf => false

/-- Embedding of the optimized bound::operator\>=. -/
def bGe : EBound α → EBound α → Bool
  | ninf, fin _ => false
  | pinf, fin _ => true
  | fin _, pinf => false
  | fin _, ninf => true
  | fin m, fin n => decide (m ≥ n)
  | pinf, pinf => true
  | ninf, ninf => true
  | ninf, pinf => false
  | pinf, ninf => true

/-- Embedding of bound::operator\<, defined in the source as the negation
of operator\>=. -/
def bLt (a b : EBound α) : Bool := !(bGe a b)

/-- Embedding of bound::operator\>, defined in the source as the negation
of operator\<=. -/
def bGt (a b : EBound α) : Bool := !(bLe a b)

/-- Embedding of bound::min. -/
def bmin (a b : EBound α) : EBound α := if bLe a b then a else b

/-- Embedding of bound::max. -/
def bmax (a b : EBound α) : EBound α := if bLe a b then b else a

/-- Embedding of the four-argument bound::min (min(x, min(y, z, t))). -/
def bmin4 (a b c d : EBound α) : EBound α := bmin a (bmin b (bmin c d))

/-- Embedding of the four-argument bound::max (max(x, max(y, z, t))). -/
def bmax4 (a b c d : EBound α) : EBound α := bmax a (bmax b (bmax c d))

theorem bLe_refl (a : EBound α) : bLe a a = true := by
  cases a <;> simp [bLe]

theorem bLe_ninf (a : EBound α) : bLe ninf a = true := by
  cases a <;> simp [bLe]

theorem bLe_pinf (a : EBound α) : bLe a pinf = true := by
  cases a <;> simp [bLe]

theorem bGe_eq_bLe (a b : EBound α) : bGe a b = bLe b a := by
  cases a <;> cases b <;> simp [bGe, bLe, ge_iff_le]

theorem bLe_total (a b : EBound α) : bLe a b = true ∨ bLe b a = true := by
  cases a <;> cases b <;> simp [bLe] <;> exact le_total _ _

theorem bLe_trans {a b c : EBound α} (h1 : bLe a b = true) (h2 : bLe b c = true) :
    bLe a c = true := by
  cases a <;> cases b <;> cases c <;> simp_all [bLe] <;> exact le_trans h1 h2

theorem bLe_antisymm {a b : EBound α} (h1 : bLe a b = true) (h2 : bLe b a = true) :
    a = b := by
  cases a <;> cases b <;> simp_all [bLe]
  exact le_antisymm h1 h2

theorem bLe_of_not_bLe {a b : EBound α} (h : ¬ bLe a b = true) : bLe b a = true := by
  rcases bLe_total a b with h1 | h1
  · exact absurd h1 h
  · exact h1

theorem bmin_le_left (a b : EBound α) : bLe (bmin a b) a = true := by
  unfold bmin
  split
  · exact bLe_refl a
  · exact bLe_of_not_bLe (by assumption)

theorem bmin_le_right (a b : EBound α) : bLe (bmin a b) b = true := by
  unfold bmin
  split
  · assumption
  · exact bLe_refl b

theorem le_bmax_left (a b : EBound α) : bLe a (bmax a b) = true := by
  unfold bmax
  split
  · assumption
  · exact bLe_refl a

theorem le_bmax_right (a b : EBound α) : bLe b (bmax a b) = true := by
  unfold bmax
  split
  · exact bLe_refl b
  · exact bLe_of_not_bLe (by assumption)

theorem bmin_cases (a b : EBound α) : bmin a b = a ∨ bmin a b = b := by
  unfold bmin
  split
  · exact Or.inl rfl
  · exact Or.inr rfl

theorem bmax_cases (a b : EBound α) : bmax a b = a ∨ bmax a b = b := by
  unfold bmax
  split
  · exact Or.inr rfl
  · exact Or.inl rfl

end EBound

open EBound

/-- Shallow embedding of ikos::interval\<Number\>: a pair of bounds. -/
structure Itv (α : Type) where
  lb : EBound α
  ub : EBound α
deriving DecidableEq, Repr

namespace Itv

variable {α : Type} [LinearOrderedRing α]

/-- Embedding of the private default constructor interval(): the
canonical bottom pair (0, -1). -/
def bot : Itv α := ⟨.fin 0, .fin (-1)⟩

/-- Embedding of interval::top(): (-oo, +oo). -/
def top : Itv α := ⟨.ninf, .pinf⟩

/-- Embedding of the public two-bound constructor interval(lb, ub):
pairs with lb \> ub normalize to the canonical bottom pair. -/
def make (l u : EBound α) : Itv α := if bGt l u then bot else ⟨l, u⟩

/-- Embedding of the constructor interval(Number n): the singleton
interval, no normalization needed. -/
def ofNum (n : α) : Itv α := ⟨.fin n, .fin n⟩

/-- Embedding of the constructor interval(bound b): an infinite bound
normalizes to the canonical bottom pair. -/
def ofBound (b : EBound α) : Itv α := if b.isInf then bot else ⟨b, b⟩

/-- Embedding of interval::is_bottom(): lb \> ub. -/
def isBot (i : Itv α) : Bool := bGt i.lb i.ub

/-- Embedding of interval::is_top(): both bounds infinite. -/
def isTop (i : Itv α) : Bool := i.lb.isInf && i.ub.isInf

/-- Embedding of interval::operator\<= (lattice inclusion): bottom is
least; otherwise x.lb \<= this.lb and this.ub \<= x.ub. -/
def leq (a x : Itv α) : Bool :=
  if a.isBot then true
  else if x.isBot then false
  else bLe x.lb a.lb && bLe a.ub x.ub

/-- Embedding of interval::operator== . -/
def eqv (a x : Itv α) : Bool :=
  if a.isBot then x.isBot
  else decide (a.lb = x.lb) && decide (a.ub = x.ub)

/-- Embedding of interval::operator| (join). -/
def join (a x : Itv α) : Itv α :=
  if a.isBot then x
  else if x.isBot then a
  else make (bmin a.lb x.lb) (bmax a.ub x.ub)

/-- Embedding of interval::operator\& (meet). -/
def meet (a x : Itv α) : Itv α :=
  if a.isBot || x.isBot then bot
  else make (bmax a.lb x.lb) (bmin a.ub x.ub)

/-- Embedding of interval::operator|| (widening): bottom is identity;
a bound that grew is replaced by the corresponding infinity. -/
def widen (a x : Itv α) : Itv α :=
  if a.isBot then x
  else if x.isBot then a
  else make (if bLt x.lb a.lb then .ninf else a.lb)
            (if bLt a.ub x.ub then .pinf else a.ub)

/-- Embedding of interval::operator\&\& (narrowing): bottom operand gives
bottom; an infinite bound of the left operand is tightened to the
corresponding finite bound of the right operand. -/
def narrow (a x : Itv α) : Itv α :=
  if a.isBot || x.isBot then bot
  else make (if a.lb.isInf && x.lb.isFin then x.lb else a.lb)
            (if a.ub.isInf && x.ub.isFin then x.ub else a.ub)

/-- Embedding of interval::singleton(): the number when the interval is
non-bottom with equal bounds carrying a finite value. -/
def singleton (i : Itv α) : Option α :=
  if i.isBot then none
  else if i.lb = i.ub then i.lb.number
  else none

/-- Embedding of interval::operator[](Number n): membership test. -/
def mem (i : Itv α) (n : α) : Bool :=
  if i.isBot then false
  else bLe i.lb (.fin n) && bLe (.fin n) i.ub

/-- Embedding of the generic interval::UDiv (no z_number specialization
exists for it): bottom if either operand is bottom, top otherwise. -/
def UDiv (a x : Itv α) : Itv α := if a.isBot || x.isBot then bot else top

/-- Embedding of the generic interval::SRem template body. -/
def gSRem (a x : Itv α) : Itv α := if a.isBot || x.isBot then bot else top

/-- Embedding of the generic interval::URem template body. -/
def gURem (a x : Itv α) : Itv α := if a.isBot || x.isBot then bot else top

/-- Embedding of the generic interval::And template body. -/
def gAnd (a x : Itv α) : Itv α := if a.isBot || x.isBot then bot else top

/-- Embedding of the generic interval::Or template body. -/
def gOr (a x : Itv α) : Itv α := if a.isBot || x.isBot then bot else top

/-- Embedding of the generic interval::Xor template body, which
delegates to Or. -/
def gXor (a x : Itv α) : Itv α := gOr a x

/-- Embedding of the generic interval::Shl template body. -/
def gShl (a x : Itv α) : Itv α := if a.isBot || x.isBot then bot else top

/-- Embedding of the generic interval::LShr template body. -/
def gLShr (a x : Itv α) : Itv α := if a.isBot || x.isBot then bot else top

/-- Embedding of the generic interval::AShr template body. -/
def gAShr (a x : Itv α) : Itv α := if a.isBot || x.isBot then bot else top

theorem bot_isBot : (bot : Itv α).isBot = true := by
  simp [bot, isBot, bGt, bLe]

theorem isTop_bot : (bot : Itv α).isTop = false := by
  simp [bot, isTop, isInf]

theorem leq_bot_left (x : Itv α) : leq bot x = true := by
  simp [leq, bot_isBot]

theorem not_isBot_iff {i : Itv α} : i.isBot = false ↔ bLe i.lb i.ub = true := by
  simp [isBot, bGt]

theorem make_eq_of_le {l u : EBound α} (h : bLe l u = true) : make l u = ⟨l, u⟩ := by
  simp [make, bGt, h]

theorem isBot_make_false {l u : EBound α} (h : bLe l u = true) :
    (make l u).isBot = false := by
  rw [make_eq_of_le h]
  exact not_isBot_iff.mpr h

theorem make_eq_bot_of_not_le {l u : EBound α} (h : bLe l u = false) :
    make l u = bot := by
  simp [make, bGt, h]

theorem leq_refl (a : Itv α) : leq a a = true := by
  cases ha : a.isBot
  · simp [leq, ha, bLe_refl]
  · simp [leq, ha]

theorem leq_intro {a x : Itv α} (hx : x.isBot = false)
    (h1 : bLe x.lb a.lb = true) (h2 : bLe a.ub x.ub = true) : leq a x = true := by
  cases ha : a.isBot
  · simp [leq, ha, hx, h1, h2]
  · simp [leq, ha]

theorem bLe_of_bLt_false {x y : EBound α} (h : bLt x y = false) : bLe y x = true := by
  simpa [bLt, bGe_eq_bLe] using h

end Itv

open Itv

/-- C1: widening on intervals is sound: for every pair of intervals a
and b, a is included in (a widen b) and b is included in (a widen b),
where inclusion is interval::operator\<= and widening is
interval::operator||. -/
theorem claim_C1_widening_sound {α : Type} [LinearOrderedRing α] (a b : Itv α) :
    leq a (widen a b) = true ∧ leq b (widen a b) = true := by
  cases ha : a.isBot with
  | true =>
    refine ⟨by simp [leq, ha], ?_⟩
    simp [widen, ha, leq_refl]
  | false =>
    cases hb : b.isBot with
    | true =>
      refine ⟨?_, by simp [leq, hb]⟩
      simp [widen, ha, hb, leq_refl]
    | false =>
      have hab : bLe a.lb a.ub = true := not_isBot_iff.mp ha
      have hw : widen a b =
          make (if bLt b.lb a.lb then .ninf else a.lb)
               (if bLt a.ub b.ub then .pinf else a.ub) := by
        simp [widen, ha, hb]
      cases h1 : bLt b.lb a.lb <;> cases h2 : bLt a.ub b.ub <;>
        simp only [h1, h2, if_true, if_false, Bool.false_eq_true, reduceIte] at hw
      · have e : widen a b = ⟨a.lb, a.ub⟩ := by rw [hw]; exact make_eq_of_le hab
        have hbot : (widen a b).isBot = false := by
          rw [e]; exact not_isBot_iff.mpr hab
        refine ⟨leq_intro hbot ?_ ?_, leq_intro hbot ?_ ?_⟩
        · rw [e]; exact bLe_refl _
        · rw [e]; exact bLe_refl _
        · rw [e]; exact bLe_of_bLt_false h1
        · rw [e]; exact bLe_of_bLt_false h2
      · have e : widen a b = ⟨a.lb, .pinf⟩ := by rw [hw]; exact make_eq_of_le (bLe_pinf _)
        have hbot : (widen a b).isBot = false := by
          rw [e]; exact not_isBot_iff.mpr (bLe_pinf _)
        refine ⟨leq_intro hbot ?_ ?_, leq_intro hbot ?_ ?_⟩
        · rw [e]; exact bLe_refl _
        · rw [e]; exact bLe_pinf _
        · rw [e]; exact bLe_of_bLt_false h1
        · rw [e]; exact bLe_pinf _
      · have e : widen a b = ⟨.ninf, a.ub⟩ := by rw [hw]; exact make_eq_of_le (bLe_ninf _)
        have hbot : (widen a b).isBot = false := by
          rw [e]; exact not_isBot_iff.mpr (bLe_ninf _)
        refine ⟨leq_intro hbot ?_ ?_, leq_intro hbot ?_ ?_⟩
        · rw [e]; exact bLe_ninf _
        · rw [e]; exact bLe_refl _
        · rw [e]; exact bLe_ninf _
        · rw [e]; exact bLe_of_bLt_false h2
      · have e : widen a b = ⟨.ninf, .pinf⟩ := by rw [hw]; exact make_eq_of_le (bLe_ninf _)
        have hbot : (widen a b).isBot = false := by
          rw [e]; exact not_isBot_iff.mpr (bLe_ninf _)
        refine ⟨leq_intro hbot ?_ ?_, leq_intro hbot ?_ ?_⟩
        · rw [e]; exact bLe_ninf _
        · rw [e]; exact bLe_pinf _
        · rw [e]; exact bLe_ninf _
        · rw [e]; exact bLe_pinf _

theorem eq_ninf_of_isInf_ne_pinf {α : Type} {b : EBound α} (h1 : b.isInf = true)
    (h2 : b ≠ .pinf) : b = .ninf := by
  cases b
  · simp [EBound.isInf] at h1
  · exact absurd rfl h2
  · rfl

theorem eq_pinf_of_isInf_ne_ninf {α : Type} {b : EBound α} (h1 : b.isInf = true)
    (h2 : b ≠ .ninf) : b = .pinf := by
  cases b
  · simp [EBound.isInf] at h1
  · rfl
  · exact absurd rfl h2

/-- C3 counterexample: the narrowing sandwich fails as universally
stated.  The two-bound constructor accepts the degenerate non-bottom
pair (+oo, +oo); narrowing it with [3, 5] yields [3, 5], which is not
included in (+oo, +oo). -/
theorem claim_C3_counterexample :
    ¬ (leq (meet (make .pinf .pinf : Itv Int) (make (.fin 3) (.fin 5)))
           (narrow (make .pinf .pinf) (make (.fin 3) (.fin 5))) = true ∧
       leq (narrow (make .pinf .pinf : Itv Int) (make (.fin 3) (.fin 5)))
           (make .pinf .pinf) = true) := by
  decide

/-- C3 (amended): for every pair of intervals a and b, (a meet b) is
included in (a narrow b); and (a narrow b) is included in a whenever a
is not a degenerate pair with lower bound +oo or upper bound -oo. -/
theorem claim_C3_narrowing_sandwich {α : Type} [LinearOrderedRing α] (a b : Itv α) :
    leq (meet a b) (narrow a b) = true ∧
    (a.lb ≠ .pinf → a.ub ≠ .ninf → leq (narrow a b) a = true) := by
  cases hab : (a.isBot || b.isBot) with
  | true =>
    have hm : meet a b = bot := by simp [meet, hab]
    have hn : narrow a b = bot := by simp [narrow, hab]
    exact ⟨by rw [hm]; exact leq_bot_left _, fun _ _ => by rw [hn]; exact leq_bot_left _⟩
  | false =>
    have hA : a.isBot = false := by
      cases h : a.isBot
      · rfl
      · rw [h] at hab; simp at hab
    have hn : narrow a b =
        make (if a.lb.isInf && b.lb.isFin then b.lb else a.lb)
             (if a.ub.isInf && b.ub.isFin then b.ub else a.ub) := by
      simp [narrow, hab]
    have hme : meet a b = make (bmax a.lb b.lb) (bmin a.ub b.ub) := by
      simp [meet, hab]
    have hclb : (if a.lb.isInf && b.lb.isFin then b.lb else a.lb) = a.lb ∨
        (if a.lb.isInf && b.lb.isFin then b.lb else a.lb) = b.lb := by
      split
      · exact Or.inr rfl
      · exact Or.inl rfl
    have hcub : (if a.ub.isInf && b.ub.isFin then b.ub else a.ub) = a.ub ∨
        (if a.ub.isInf && b.ub.isFin then b.ub else a.ub) = b.ub := by
      split
      · exact Or.inr rfl
      · exact Or.inl rfl
    have h1 : bLe (if a.lb.isInf && b.lb.isFin then b.lb else a.lb)
        (bmax a.lb b.lb) = true := by
      rcases hclb with h | h <;> rw [h]
      · exact le_bmax_left _ _
      · exact le_bmax_right _ _
    have h2 : bLe (bmin a.ub b.ub)
        (if a.ub.isInf && b.ub.isFin then b.ub else a.ub) = true := by
      rcases hcub with h | h <;> rw [h]
      · exact bmin_le_left _ _
      · exact bmin_le_right _ _
    constructor
    · rw [hn, hme]
      cases hle : bLe (if a.lb.isInf && b.lb.isFin then b.lb else a.lb)
          (if a.ub.isInf && b.ub.isFin then b.ub else a.ub) with
      | false =>
        have hMm : bLe (bmax a.lb b.lb) (bmin a.ub b.ub) = false := by
          cases hx : bLe (bmax a.lb b.lb) (bmin a.ub b.ub) with
          | false => rfl
          | true =>
            have hc := bLe_trans h1 (bLe_trans hx h2)
            rw [hle] at hc
            exact absurd hc (by simp)
        rw [make_eq_bot_of_not_le hMm]
        exact leq_bot_left _
      | true =>
        cases hMm : bLe (bmax a.lb b.lb) (bmin a.ub b.ub) with
        | false =>
          rw [make_eq_bot_of_not_le hMm]
          exact leq_bot_left _
        | true =>
          rw [make_eq_of_le hMm, make_eq_of_le hle]
          exact leq_intro (not_isBot_iff.mpr hle) h1 h2
    · intro hpa hpb
      rw [hn]
      cases hle : bLe (if a.lb.isInf && b.lb.isFin then b.lb else a.lb)
          (if a.ub.isInf && b.ub.isFin then b.ub else a.ub) with
      | false =>
        rw [make_eq_bot_of_not_le hle]
        exact leq_bot_left _
      | true =>
        rw [make_eq_of_le hle]
        refine leq_intro hA ?_ ?_
        · show bLe a.lb (if a.lb.isInf && b.lb.isFin then b.lb else a.lb) = true
          split
          · rename_i hc
            have hinf : a.lb.isInf = true := (Bool.and_eq_true _ _).mp hc |>.1
            rw [eq_ninf_of_isInf_ne_pinf hinf hpa]
            exact bLe_ninf _
          · exact bLe_refl _
        · show bLe (if a.ub.isInf && b.ub.isFin then b.ub else a.ub) a.ub = true
          split
          · rename_i hc
            have hinf : a.ub.isInf = true := (Bool.and_eq_true _ _).mp hc |>.1
            rw [eq_pinf_of_isInf_ne_ninf hinf hpb]
            exact bLe_pinf _
          · exact bLe_refl _

/-- C3 witness: the amended narrowing sandwich at the concrete pair
a = [1, +oo), b = [2, 7], with the side conditions discharged. -/
theorem claim_C3_witness :
    leq (meet (⟨.fin 1, .pinf⟩ : Itv Int) ⟨.fin 2, .fin 7⟩)
        (narrow ⟨.fin 1, .pinf⟩ ⟨.fin 2, .fin 7⟩) = true ∧
    leq (narrow (⟨.fin 1, .pinf⟩ : Itv Int) ⟨.fin 2, .fin 7⟩) ⟨.fin 1, .pinf⟩ = true := by
  have h := claim_C3_narrowing_sandwich (⟨.fin 1, .pinf⟩ : Itv Int) ⟨.fin 2, .fin 7⟩
  exact ⟨h.1, h.2 (by decide) (by decide)⟩

/-- C7: the comparison on extended bounds is a total order with -oo
strictly below every finite bound and every finite bound strictly below
+oo; operator\<= is total, reflexive, transitive and antisymmetric, the
optimized operator\>= agrees with operator\<= transposed, and operator\<=
agrees with the reference order (-oo least, +oo greatest, finite bounds
by value). -/
theorem claim_C7_bound_order {α : Type} [LinearOrder α] (a b c : EBound α) (m : α) :
    (bLe a b = true ∨ bLe b a = true) ∧
    bLe a a = true ∧
    (bLe a b = true → bLe b c = true → bLe a c = true) ∧
    (bLe a b = true → bLe b a = true → a = b) ∧
    bGe a b = bLe b a ∧
    bLt .ninf (.fin m) = true ∧
    bLt (.fin m) .pinf = true ∧
    (bLe a b = true ↔
      (a = .ninf ∨ b = .pinf ∨ ∃ x y, a = .fin x ∧ b = .fin y ∧ x ≤ y)) := by
  refine ⟨bLe_total a b, bLe_refl a, fun h1 h2 => bLe_trans h1 h2,
    fun h1 h2 => bLe_antisymm h1 h2, bGe_eq_bLe a b, by simp [bLt, bGe],
    by simp [bLt, bGe], ?_⟩
  cases a <;> cases b <;> simp [bLe]

/-- C7 witness: the bound-order properties at the concrete integer
bounds 4, 4, +oo and m = 9, with the hypotheses discharged. -/
theorem claim_C7_witness :
    (bLe (.fin 4 : EBound Int) (.fin 4) = true ∨ bLe (.fin 4 : EBound Int) (.fin 4) = true) ∧
    bLe (.fin 4 : EBound Int) (.fin 4) = true ∧
    bLe (.fin 4 : EBound Int) .pinf = true ∧
    (.fin 4 : EBound Int) = .fin 4 ∧
    bGe (.fin 4 : EBound Int) (.fin 4) = bLe (.fin 4 : EBound Int) (.fin 4) ∧
    bLt (.ninf : EBound Int) (.fin 9) = true ∧
    bLt (.fin 9 : EBound Int) .pinf = true ∧
    (bLe (.fin 4 : EBound Int) (.fin 4) = true ↔
      ((.fin 4 : EBound Int) = .ninf ∨ (.fin 4 : EBound Int) = .pinf ∨
        ∃ x y, (.fin 4 : EBound Int) = .fin x ∧ (.fin 4 : EBound Int) = .fin y ∧ x ≤ y)) := by
  have h := claim_C7_bound_order (.fin 4 : EBound Int) (.fin 4) .pinf 9
  exact ⟨h.1, h.2.1, h.2.2.1 (by decide) (by decide), h.2.2.2.1 (by decide) (by decide),
    h.2.2.2.2.1, h.2.2.2.2.2.1, h.2.2.2.2.2.2.1, h.2.2.2.2.2.2.2⟩

/-- C6: interval normalization: every interval constructed from a pair
of bounds with lb \> ub equals the canonical bottom pair (0, -1); the
singleton-bound constructor applied to an infinite bound also yields
bottom; and is_bottom holds on the constructed values exactly in these
cases. -/
theorem claim_C6_normalization {α : Type} [LinearOrderedRing α] (l u b0 : EBound α) :
    (bGt l u = true → make l u = bot) ∧
    (b0.isInf = true → ofBound b0 = bot) ∧
    (make l u).isBot = bGt l u ∧
    (ofBound b0).isBot = b0.isInf := by
  refine ⟨fun h => by simp [make, h], fun h => by simp [ofBound, h], ?_, ?_⟩
  · cases h : bGt l u with
    | true => simp [make, h, bot_isBot]
    | false => simp [make, h, isBot]
  · cases h : b0.isInf with
    | true => simp [ofBound, h, bot_isBot]
    | false => simp [ofBound, h, isBot, bGt, bLe_refl]

/-- C6 witness: normalization at the concrete integer bounds l = 2,
u = -5 (inverted pair) and b0 = +oo (infinite singleton), with the
hypotheses discharged. -/
theorem claim_C6_witness :
    bGt (.fin 2 : EBound Int) (.fin (-5)) = true ∧
    make (.fin 2 : EBound Int) (.fin (-5)) = bot ∧
    (EBound.pinf : EBound Int).isInf = true ∧
    ofBound (.pinf : EBound Int) = bot ∧
    (make (.fin 2 : EBound Int) (.fin (-5))).isBot = bGt (.fin 2 : EBound Int) (.fin (-5)) ∧
    (ofBound (.pinf : EBound Int)).isBot = (EBound.pinf : EBound Int).isInf := by
  have h := claim_C6_normalization (.fin 2 : EBound Int) (.fin (-5)) .pinf
  exact ⟨by decide, h.1 (by decide), by decide, h.2.1 (by decide), h.2.2.1, h.2.2.2⟩

/-- Embedding of bound::operator+ for z_number bounds; the result is
none exactly where the source raises CRAB_ERROR (adding opposite
infinities). -/
def bAddE : EBound Int → EBound Int → Option (EBound Int)
  | .fin m, .fin n => some (.fin (m + n))
  | .fin _, .pinf => some .pinf
  | .fin _, .ninf => some .ninf
  | .pinf, .fin _ => some .pinf
  | .ninf, .fin _ => some .ninf
  | .pinf, .pinf => some .pinf
  | .ninf, .ninf => some .ninf
  | .pinf, .ninf => none
  | .ninf, .pinf => none

/-- Total variant of bAddE used inside interval arithmetic; the source
raises a fatal error on opposite infinities, where this returns +oo.
The interval operations proved below never depend on that branch. -/
def bAddT (a b : EBound Int) : EBound Int := (bAddE a b).getD .pinf

/-- Embedding of bound::operator- (binary), defined in the source as
a + (-b). -/
def bSubT (a b : EBound Int) : EBound Int := bAddT a (bneg b)

/-- Embedding of bound::operator* for z_number bounds: a literal zero
operand absorbs; otherwise the result is infinite if either operand is,
with the sign of the product of the stored numbers. -/
def bMulT (a b : EBound Int) : EBound Int :=
  if b = .fin 0 then b
  else if a = .fin 0 then a
  else
    match a, b with
    | .fin m, .fin n => .fin (m * n)
    | .fin m, .pinf => if 0 < m then .pinf else .ninf
    | .fin m, .ninf => if 0 < m then .ninf else .pinf
    | .pinf, .fin n => if 0 < n then .pinf else .ninf
    | .ninf, .fin n => if 0 < n then .ninf else .pinf
    | .pinf, .pinf => .pinf
    | .pinf, .ninf => .ninf
    | .ninf, .pinf => .ninf
    | .ninf, .ninf => .pinf

/-- Embedding of bound::operator/ for z_number bounds; the result is
none exactly where the source raises CRAB_ERROR (a zero divisor bound,
which is necessarily finite since infinite bounds store the sign ±1).
Finite division truncates toward zero (GMP semantics), via Int.tdiv. -/
def bDivE (a b : EBound Int) : Option (EBound Int) :=
  if b = .fin 0 then none
  else
    some (match a, b with
      | .fin m, .fin n => .fin (m.tdiv n)
      | .fin m, .pinf => if 0 < m then .pinf else if m = 0 then .fin 0 else .ninf
      | .fin m, .ninf => if 0 < m then .ninf else if m = 0 then .fin 0 else .pinf
      | .pinf, .fin n => if 0 < n then .pinf else .ninf
      | .ninf, .fin n => if 0 < n then .ninf else .pinf
      | .pinf, .pinf => .pinf
      | .pinf, .ninf => .ninf
      | .ninf, .pinf => .ninf
      | .ninf, .ninf => .pinf)

/-- Total variant of bDivE used inside interval arithmetic; the source
raises a fatal error on a zero divisor bound, where this returns 0.
The interval division proved below never reaches that branch. -/
def bDivT (a b : EBound Int) : EBound Int := (bDivE a b).getD (.fin 0)

/-- C5: extended-bound arithmetic errors exactly on the two undefined
cases: addition fails only on opposite infinities and otherwise follows
the finite-sum and like-signed-infinity rules; division fails only on a
zero divisor bound and otherwise follows the sign rules (truncated
finite quotient, 0 divided by an infinity is 0, and the remaining mixed
cases give the infinity whose sign is the product of the operand
signs). -/
theorem claim_C5_bound_arith_undefined (a b : EBound Int) (m n : Int) :
    bAddE (.fin m) (.fin n) = some (.fin (m + n)) ∧
    bAddE (.fin m) .pinf = some .pinf ∧
    bAddE (.fin m) .ninf = some .ninf ∧
    bAddE .pinf (.fin n) = some .pinf ∧
    bAddE .ninf (.fin n) = some .ninf ∧
    bAddE .pinf .pinf = some .pinf ∧
    bAddE .ninf .ninf = some .ninf ∧
    (bAddE a b = none ↔ (a = .pinf ∧ b = .ninf) ∨ (a = .ninf ∧ b = .pinf)) ∧
    (bDivE a b = none ↔ b = .fin 0) ∧
    (n ≠ 0 → bDivE (.fin m) (.fin n) = some (.fin (m.tdiv n))) ∧
    bDivE (.fin 0) .pinf = some (.fin 0) ∧
    bDivE (.fin 0) .ninf = some (.fin 0) ∧
    (0 < m → bDivE (.fin m) .pinf = some .pinf ∧ bDivE (.fin m) .ninf = some .ninf) ∧
    (m < 0 → bDivE (.fin m) .pinf = some .ninf ∧ bDivE (.fin m) .ninf = some .pinf) ∧
    (0 < n → bDivE .pinf (.fin n) = some .pinf ∧ bDivE .ninf (.fin n) = some .ninf) ∧
    (n < 0 → bDivE .pinf (.fin n) = some .ninf ∧ bDivE .ninf (.fin n) = some .pinf) ∧
    bDivE .pinf .pinf = some .pinf ∧
    bDivE .pinf .ninf = some .ninf ∧
    bDivE .ninf .pinf = some .ninf ∧
    bDivE .ninf .ninf = some .pinf := by
  refine ⟨rfl, rfl, rfl, rfl, rfl, rfl, rfl, ?_, ?_, ?_, by decide, by decide,
    ?_, ?_, ?_, ?_, by decide, by decide, by decide, by decide⟩
  · cases a <;> cases b <;> simp [bAddE]
  · cases a <;> cases b <;> simp [bDivE]
  · intro h
    simp [bDivE, h]
  · intro h
    have h0 : m ≠ 0 := ne_of_gt h
    constructor <;> simp [bDivE, h, h0]
  · intro h
    have h0 : m ≠ 0 := ne_of_lt h
    have h1 : ¬ (0 < m) := not_lt_of_lt h
    constructor <;> simp [bDivE, h0, h1]
  · intro h
    have h0 : n ≠ 0 := ne_of_gt h
    constructor <;> simp [bDivE, h, h0]
  · intro h
    have h0 : n ≠ 0 := ne_of_lt h
    have h1 : ¬ (0 < n) := not_lt_of_lt h
    constructor <;> simp [bDivE, h0, h1]

/-- C5 witness: the partiality characterization at the concrete bounds
a = +oo, b = -oo and finite values m = 7, n = -2, with the hypotheses
discharged. -/
theorem claim_C5_witness :
    bAddE .pinf .ninf = none ∧
    bDivE (.fin 7) (.fin (-2)) = some (.fin ((7 : Int).tdiv (-2))) ∧
    (bDivE (.fin 7) .pinf = some .pinf ∧ bDivE (.fin 7) .ninf = some .ninf) ∧
    (bDivE .pinf (.fin (-2)) = some .ninf ∧ bDivE .ninf (.fin (-2)) = some .pinf) := by
  have h := claim_C5_bound_arith_undefined .pinf .ninf 7 (-2)
  refine ⟨?_, ?_, ?_, ?_⟩
  · exact h.2.2.2.2.2.2.2.1.mpr (Or.inl ⟨rfl, rfl⟩)
  · exact h.2.2.2.2.2.2.2.2.2.1 (by decide)
  · exact h.2.2.2.2.2.2.2.2.2.2.2.2.1 (by decide)
  · exact h.2.2.2.2.2.2.2.2.2.2.2.2.2.2.2.1 (by decide)

/-- C10: for intervals over rational numbers the operations UDiv, SRem,
URem, And, Or, Xor, Shl, LShr and AShr all use the generic template
bodies (the precise specializations exist only for z_number): each
returns bottom when either operand is bottom and top in every other
case. -/
theorem claim_C10_rational_ops (a x : Itv Rat) :
    (bot : Itv Rat).isBot = true ∧
    (top : Itv Rat).isTop = true ∧
    UDiv a x = (if a.isBot || x.isBot then bot else top) ∧
    gSRem a x = (if a.isBot || x.isBot then bot else top) ∧
    gURem a x = (if a.isBot || x.isBot then bot else top) ∧
    gAnd a x = (if a.isBot || x.isBot then bot else top) ∧
    gOr a x = (if a.isBot || x.isBot then bot else top) ∧
    gXor a x = (if a.isBot || x.isBot then bot else top) ∧
    gShl a x = (if a.isBot || x.isBot then bot else top) ∧
    gLShr a x = (if a.isBot || x.isBot then bot else top) ∧
    gAShr a x = (if a.isBot || x.isBot then bot else top) :=
  ⟨bot_isBot, rfl, rfl, rfl, rfl, rfl, rfl, rfl, rfl, rfl, rfl⟩

/-- Embedding of interval::operator+ instantiated at z_number. -/
def iAdd (a x : Itv Int) : Itv Int :=
  if a.isBot || x.isBot then .bot
  else .make (bAddT a.lb x.lb) (bAddT a.ub x.ub)

/-- Embedding of interval::operator- (binary) instantiated at z_number. -/
def iSub (a x : Itv Int) : Itv Int :=
  if a.isBot || x.isBot then .bot
  else .make (bSubT a.lb x.ub) (bSubT a.ub x.lb)

/-- Embedding of interval::operator* instantiated at z_number: the four
endpoint products bracketed by their minimum and maximum. -/
def iMul (a x : Itv Int) : Itv Int :=
  if a.isBot || x.isBot then .bot
  else
    .make (bmin4 (bMulT a.lb x.lb) (bMulT a.lb x.ub) (bMulT a.ub x.lb) (bMulT a.ub x.ub))
          (bmax4 (bMulT a.lb x.lb) (bMulT a.lb x.ub) (bMulT a.ub x.lb) (bMulT a.ub x.ub))

/-- Embedding of the endpoint-quotient final branch of the z_number
interval division (neither operand contains zero), including the
truncation correction that shifts a fully negative dividend by one
toward zero. -/
def divEndpoints (a x : Itv Int) : Itv Int :=
  let b := if bLt a.ub (.fin 0) then
             iAdd a (if bLt x.ub (.fin 0) then iAdd x (.ofNum 1) else iSub (.ofNum 1) x)
           else a
  .make (bmin4 (bDivT b.lb x.lb) (bDivT b.lb x.ub) (bDivT b.ub x.lb) (bDivT b.ub x.ub))
        (bmax4 (bDivT b.lb x.lb) (bDivT b.lb x.ub) (bDivT b.ub x.lb) (bDivT b.ub x.ub))

theorem memZero_ubNegOne (l : EBound Int) : (Itv.make l (.fin (-1))).mem 0 = false := by
  rw [Itv.make]
  split
  · simp [Itv.mem, Itv.bot_isBot]
  · simp [Itv.mem, bLe]

theorem memZero_lbOne (u : EBound Int) : (Itv.make (.fin 1) u).mem 0 = false := by
  rw [Itv.make]
  split
  · simp [Itv.mem, Itv.bot_isBot]
  · simp [Itv.mem, bLe]

/-- Embedding of the z_number specialization of interval::operator/.
The singleton-divisor fast path returns on c = 1, c \> 0 and c \< 0 and
falls through on c = 0 to the code shared with the non-singleton case:
a divisor containing 0 is split at 0 exclusively with the two results
joined; otherwise a dividend containing 0 is split symmetrically with
the singleton 0 joined in; otherwise the endpoint-quotient branch
runs. -/
def iDiv (a x : Itv Int) : Itv Int :=
  if a.isBot || x.isBot then .bot
  else
    match x.singleton with
    | some c =>
      if c = 1 then a
      else if 0 < c then .make (bDivT a.lb (.fin c)) (bDivT a.ub (.fin c))
      else if c < 0 then .make (bDivT a.ub (.fin c)) (bDivT a.lb (.fin c))
      else
        if x.mem 0 then
          (iDiv a (.make x.lb (.fin (-1)))).join (iDiv a (.make (.fin 1) x.ub))
        else if a.mem 0 then
          ((iDiv (.make a.lb (.fin (-1))) x).join (iDiv (.make (.fin 1) a.ub) x)).join
            (.ofNum 0)
        else divEndpoints a x
    | none =>
      if x.mem 0 then
        (iDiv a (.make x.lb (.fin (-1)))).join (iDiv a (.make (.fin 1) x.ub))
      else if a.mem 0 then
        ((iDiv (.make a.lb (.fin (-1))) x).join (iDiv (.make (.fin 1) a.ub) x)).join
          (.ofNum 0)
      else divEndpoints a x
termination_by (if a.mem 0 = true then 1 else 0) + (if x.mem 0 = true then 1 else 0)
decreasing_by
  all_goals simp [memZero_ubNegOne, memZero_lbOne, *]

theorem bDivT_one (b : EBound Int) : bDivT b (.fin 1) = b := by
  cases b <;> simp [bDivT, bDivE]

theorem singleton_eq_some {x : Itv Int} {c : Int} (h : x.singleton = some c) :
    x.lb = .fin c ∧ x.ub = .fin c := by
  unfold Itv.singleton at h
  split at h
  · exact absurd h (by simp)
  · split at h
    · rename_i heq
      cases hl : x.lb with
      | fin n =>
        rw [hl] at h
        have hnc : n = c := by simpa [EBound.number] using h
        constructor
        · exact congrArg EBound.fin hnc
        · rw [← heq, hl]
          exact congrArg EBound.fin hnc
      | pinf =>
        rw [hl] at h
        simp [EBound.number] at h
      | ninf =>
        rw [hl] at h
        simp [EBound.number] at h
    · exact absurd h (by simp)

theorem iDiv_bot_right (a : Itv Int) : iDiv a .bot = .bot := by
  unfold iDiv
  simp [Itv.bot_isBot]

/-- C4: integer interval division follows the specified case split: for
non-bottom operands, a singleton divisor c gives the dividend for
c = 1, the truncated endpoint quotients [lb/c, ub/c] for c \> 0 and
[ub/c, lb/c] for c \< 0, and bottom for c = 0; a non-singleton divisor
containing 0 is split at 0 exclusively into its negative part ending at
-1 and its positive part starting at 1, division recurses on both
halves and the results are joined. -/
theorem claim_C4_int_division (a x : Itv Int) (c : Int)
    (ha : a.isBot = false) (hx : x.isBot = false) :
    (x.singleton = some 1 → iDiv a x = a) ∧
    (x.singleton = some c → 0 < c →
      iDiv a x = .make (bDivT a.lb (.fin c)) (bDivT a.ub (.fin c))) ∧
    (x.singleton = some c → c < 0 →
      iDiv a x = .make (bDivT a.ub (.fin c)) (bDivT a.lb (.fin c))) ∧
    (x.singleton = some 0 → iDiv a x = .bot) ∧
    (x.singleton = none → x.mem 0 = true →
      iDiv a x = (iDiv a (.make x.lb (.fin (-1)))).join (iDiv a (.make (.fin 1) x.ub))) := by
  refine ⟨?_, ?_, ?_, ?_, ?_⟩
  · intro h
    unfold iDiv
    simp [ha, hx, h]
  · intro h hc
    by_cases h1 : c = 1
    · subst h1
      unfold iDiv
      simp [ha, hx, h]
      rw [bDivT_one, bDivT_one, make_eq_of_le (not_isBot_iff.mp ha)]
    · unfold iDiv
      simp [ha, hx, h, h1, hc]
  · intro h hc
    have h1 : c ≠ 1 := by omega
    have h2 : ¬ (0 < c) := by omega
    unfold iDiv
    simp [ha, hx, h, h1, h2, hc]
  · intro h
    obtain ⟨hlb, hub⟩ := singleton_eq_some h
    have hm : x.mem 0 = true := by simp [Itv.mem, hx, hlb, hub, bLe]
    conv_lhs => unfold iDiv
    simp [ha, hx, h, hm, hlb, hub]
    have e1 : (Itv.make (.fin (0:Int)) (.fin (-1))) = Itv.bot := by decide
    have e2 : (Itv.make (.fin (1:Int)) (.fin 0)) = Itv.bot := by decide
    rw [e1, e2, iDiv_bot_right]
    simp [Itv.join, Itv.bot_isBot]
  · intro h hm
    conv_lhs => unfold iDiv
    simp [ha, hx, h, hm]

/-- C4 witness: the division case split at the concrete intervals
a = [4, 9], x = [2, 2] (singleton divisor 2), with the hypotheses
discharged. -/
theorem claim_C4_witness :
    (⟨.fin 4, .fin 9⟩ : Itv Int).isBot = false ∧
    (⟨.fin 2, .fin 2⟩ : Itv Int).isBot = false ∧
    (⟨.fin 2, .fin 2⟩ : Itv Int).singleton = some 2 ∧
    iDiv ⟨.fin 4, .fin 9⟩ ⟨.fin 2, .fin 2⟩ =
      .make (bDivT (.fin 4) (.fin 2)) (bDivT (.fin 9) (.fin 2)) := by
  have h := claim_C4_int_division ⟨.fin 4, .fin 9⟩ ⟨.fin 2, .fin 2⟩ 2 (by decide) (by decide)
  exact ⟨by decide, by decide, by decide, h.2.1 (by decide) (by decide)⟩

/-- Modelled from the spec: patricia_tree lookup (the patricia tree is
an external collaborator of separate_domain; an association list over
variable indices represents it). -/
def lookupT : List (Nat × Itv Int) → Nat → Option (Itv Int)
  | [], _ => none
  | e :: t, k => if e.1 = k then some e.2 else lookupT t k

/-- Modelled from the spec: patricia_tree keyed insert (overwrites the
binding of the key if present). -/
def insertT : List (Nat × Itv Int) → Nat → Itv Int → List (Nat × Itv Int)
  | [], k, v => [(k, v)]
  | e :: t, k, v => if e.1 = k then (k, v) :: t else e :: insertT t k v

/-- Modelled from the spec: patricia_tree remove. -/
def removeT (t : List (Nat × Itv Int)) (k : Nat) : List (Nat × Itv Int) :=
  t.filter (fun e => e.1 != k)

/-- Modelled from the spec: patricia_tree::merge_with for a binary
operator whose default (top, encoded as a none result of apply) is
absorbing: keys present in only one input are dropped; keys present in
both are combined, and dropped when apply returns none. -/
def mergeAbsorbing (f : Itv Int → Itv Int → Option (Itv Int))
    (t1 t2 : List (Nat × Itv Int)) : List (Nat × Itv Int) :=
  t1.filterMap (fun e =>
    match lookupT t2 e.1 with
    | some y => (f e.2 y).map (fun z => (e.1, z))
    | none => none)

/-- Modelled from the spec: patricia_tree::merge_with for a binary
operator whose default is not absorbing, restricted to the keys of the
first input: such keys keep their value when absent from the second
input and are combined otherwise; a none result of apply models the
bottom_found signal and aborts the whole merge. -/
def mergeKeepAux (f : Itv Int → Itv Int → Option (Itv Int)) :
    List (Nat × Itv Int) → List (Nat × Itv Int) → Option (List (Nat × Itv Int))
  | [], _ => some []
  | e :: t, t2 =>
    match lookupT t2 e.1 with
    | some y =>
      match f e.2 y with
      | some z => (mergeKeepAux f t t2).map (fun r => (e.1, z) :: r)
      | none => none
    | none => (mergeKeepAux f t t2).map (fun r => e :: r)

/-- Modelled from the spec: patricia_tree::merge_with for a binary
operator whose default is not absorbing: the keys of the first input
(combined or kept) followed by the keys present only in the second
input, which keep their value. -/
def mergeKeeping (f : Itv Int → Itv Int → Option (Itv Int))
    (t1 t2 : List (Nat × Itv Int)) : Option (List (Nat × Itv Int)) :=
  (mergeKeepAux f t1 t2).map
    (fun r => r ++ t2.filter (fun e => (lookupT t1 e.1).isNone))

/-- Embedding of separate_domain::join_op::apply: pointwise interval
join, with a top result encoded as none. -/
def joinOpApply (x y : Itv Int) : Option (Itv Int) :=
  if (x.join y).isTop then none else some (x.join y)

/-- Embedding of separate_domain::widening_op::apply: pointwise interval
widening, with a top result encoded as none. -/
def widenOpApply (x y : Itv Int) : Option (Itv Int) :=
  if (x.widen y).isTop then none else some (x.widen y)

/-- Embedding of separate_domain::meet_op::apply: pointwise interval
meet; a bottom result throws bottom_found, encoded as none. -/
def meetOpApply (x y : Itv Int) : Option (Itv Int) :=
  if (x.meet y).isBot then none else some (x.meet y)

/-- Embedding of separate_domain::narrowing_op::apply: pointwise
interval narrowing; a bottom result throws bottom_found, encoded as
none. -/
def narrowOpApply (x y : Itv Int) : Option (Itv Int) :=
  if (x.narrow y).isBot then none else some (x.narrow y)

/-- Embedding of ikos::separate_domain\<Key, Value\> instantiated at
integer intervals: either the distinguished bottom or a tree. -/
inductive SepDom where
  | sbot
  | tree (t : List (Nat × Itv Int))
deriving DecidableEq, Repr

namespace SepDom

/-- Embedding of separate_domain::is_bottom. -/
def isBot : SepDom → Bool
  | sbot => true
  | tree _ => false

/-- Embedding of separate_domain::is_top: not bottom and empty tree. -/
def isTop : SepDom → Bool
  | sbot => false
  | tree t => t.isEmpty

/-- Embedding of separate_domain::top() (default constructor, empty
tree). -/
def stop : SepDom := tree []

/-- Embedding of separate_domain::operator| (join): bottom is identity,
otherwise merge_with join_op (absorbing default). -/
def join : SepDom → SepDom → SepDom
  | sbot, e => e
  | e, sbot => e
  | tree t1, tree t2 => tree (mergeAbsorbing joinOpApply t1 t2)

/-- Embedding of separate_domain::operator|| (widening): bottom is
identity, otherwise merge_with widening_op (absorbing default). -/
def widen : SepDom → SepDom → SepDom
  | sbot, e => e
  | e, sbot => e
  | tree t1, tree t2 => tree (mergeAbsorbing widenOpApply t1 t2)

/-- Embedding of separate_domain::operator\& (meet): bottom if either
operand is bottom; the bottom_found signal collapses to bottom. -/
def meet : SepDom → SepDom → SepDom
  | sbot, _ => sbot
  | _, sbot => sbot
  | tree t1, tree t2 =>
    match mergeKeeping meetOpApply t1 t2 with
    | some t => tree t
    | none => sbot

/-- Embedding of separate_domain::operator\&\& (narrowing): bottom if
either operand is bottom; the bottom_found signal collapses to
bottom. -/
def narrow : SepDom → SepDom → SepDom
  | sbot, _ => sbot
  | _, sbot => sbot
  | tree t1, tree t2 =>
    match mergeKeeping narrowOpApply t1 t2 with
    | some t => tree t
    | none => sbot

/-- Embedding of separate_domain::set: assigning bottom collapses the
map to bottom, assigning top removes the key, otherwise insert. -/
def set (s : SepDom) (k : Nat) (v : Itv Int) : SepDom :=
  match s with
  | sbot => sbot
  | tree t =>
    if v.isBot then sbot
    else if v.isTop then tree (removeT t k)
    else tree (insertT t k v)

/-- Embedding of separate_domain::operator-= (forget). -/
def forget (s : SepDom) (k : Nat) : SepDom :=
  match s with
  | sbot => sbot
  | tree t => tree (removeT t k)

/-- Embedding of separate_domain::operator[] (lookup): bottom maps every
key to the value bottom; a missing key means top. -/
def lookup (s : SepDom) (k : Nat) : Itv Int :=
  match s with
  | sbot => Itv.bot
  | tree t => (lookupT t k).getD Itv.top

/-- Well-formedness of the tree form (claim C2's invariant): no key
maps to the value top and no key maps to the value bottom. -/
def wfT (t : List (Nat × Itv Int)) : Bool :=
  t.all (fun e => !e.2.isTop && !e.2.isBot)

/-- Well-formedness of a separate-domain value: bottom is well formed,
a tree is well formed when its entries are. -/
def wf : SepDom → Bool
  | sbot => true
  | tree t => wfT t

end SepDom

theorem bLe_eq_ninf {α : Type} [LinearOrder α] {z : EBound α}
    (h : bLe z .ninf = true) : z = .ninf := by
  cases z <;> simp_all [bLe]

theorem bLe_pinf_eq {α : Type} [LinearOrder α] {z : EBound α}
    (h : bLe .pinf z = true) : z = .pinf := by
  cases z <;> simp_all [bLe]

theorem wf_shape {α : Type} [LinearOrderedRing α] {x : Itv α}
    (hb : x.isBot = false) (ht : x.isTop = false) :
    x.lb ≠ .pinf ∧ x.ub ≠ .ninf := by
  have hle := Itv.not_isBot_iff.mp hb
  constructor
  · intro h
    rw [h] at hle
    have hub := bLe_pinf_eq hle
    have htop : x.isTop = true := by rw [Itv.isTop, h, hub]; rfl
    rw [htop] at ht
    cases ht
  · intro h
    rw [h] at hle
    have hlb := bLe_eq_ninf hle
    have htop : x.isTop = true := by rw [Itv.isTop, h, hlb]; rfl
    rw [htop] at ht
    cases ht

theorem join_not_isBot {α : Type} [LinearOrderedRing α] {a x : Itv α}
    (ha : a.isBot = false) (hx : x.isBot = false) : (a.join x).isBot = false := by
  have hab := Itv.not_isBot_iff.mp ha
  rw [Itv.join]
  simp only [ha, hx, Bool.false_eq_true, if_false]
  exact Itv.isBot_make_false
    (bLe_trans (bmin_le_left _ _) (bLe_trans hab (le_bmax_left _ _)))

theorem widen_not_isBot {α : Type} [LinearOrderedRing α] {a x : Itv α}
    (ha : a.isBot = false) (hx : x.isBot = false) : (a.widen x).isBot = false := by
  have hab := Itv.not_isBot_iff.mp ha
  rw [Itv.widen]
  simp only [ha, hx, Bool.false_eq_true, if_false]
  cases h1 : bLt x.lb a.lb <;> cases h2 : bLt a.ub x.ub <;>
    simp only [h1, h2, if_true, if_false, Bool.false_eq_true, reduceIte]
  · exact Itv.isBot_make_false hab
  · exact Itv.isBot_make_false (bLe_pinf _)
  · exact Itv.isBot_make_false (bLe_ninf _)
  · exact Itv.isBot_make_false (bLe_ninf _)

theorem meet_not_isTop {α : Type} [LinearOrderedRing α] {x y : Itv α}
    (hxb : x.isBot = false) (hxt : x.isTop = false)
    (hyb : y.isBot = false) (hyt : y.isTop = false) : (x.meet y).isTop = false := by
  obtain ⟨hxp, hxn⟩ := wf_shape hxb hxt
  obtain ⟨hyp, hyn⟩ := wf_shape hyb hyt
  rw [Itv.meet]
  simp only [hxb, hyb, Bool.or_self, Bool.false_eq_true, if_false]
  rw [Itv.make]
  split
  · exact Itv.isTop_bot
  · cases hMi : (bmax x.lb y.lb).isInf with
    | false => simp [Itv.isTop, hMi]
    | true =>
      cases hmi : (bmin x.ub y.ub).isInf with
      | false => simp [Itv.isTop, hMi, hmi]
      | true =>
        exfalso
        have hxlb : x.lb = .ninf := by
          rcases bmax_cases x.lb y.lb with h | h
          · rw [h] at hMi
            exact eq_ninf_of_isInf_ne_pinf hMi hxp
          · rw [h] at hMi
            have hyl : y.lb = .ninf := eq_ninf_of_isInf_ne_pinf hMi hyp
            have hb := le_bmax_left x.lb y.lb
            rw [h, hyl] at hb
            exact bLe_eq_ninf hb
        have hxub : x.ub = .pinf := by
          rcases bmin_cases x.ub y.ub with h | h
          · rw [h] at hmi
            exact eq_pinf_of_isInf_ne_ninf hmi hxn
          · rw [h] at hmi
            have hyu : y.ub = .pinf := eq_pinf_of_isInf_ne_ninf hmi hyn
            have hb := bmin_le_left x.ub y.ub
            rw [h, hyu] at hb
            exact bLe_pinf_eq hb
        have htop : x.isTop = true := by rw [Itv.isTop, hxlb, hxub]; rfl
        rw [htop] at hxt
        cases hxt

theorem isFin_isInf {α : Type} {b : EBound α} (h : b.isFin = true) : b.isInf = false := by
  cases b <;> simp_all [isFin, isInf]

theorem isTop_make_left_fin {α : Type} [LinearOrderedRing α] {l u : EBound α}
    (h : l.isInf = false) : (Itv.make l u).isTop = false := by
  rw [Itv.make]
  split
  · exact Itv.isTop_bot
  · simp [Itv.isTop, h]

theorem isTop_make_right_fin {α : Type} [LinearOrderedRing α] {l u : EBound α}
    (h : u.isInf = false) : (Itv.make l u).isTop = false := by
  rw [Itv.make]
  split
  · exact Itv.isTop_bot
  · simp [Itv.isTop, h]

theorem narrow_not_isTop {α : Type} [LinearOrderedRing α] {x y : Itv α}
    (hxb : x.isBot = false) (hyb : y.isBot = false)
    (hxt : x.isTop = false) : (x.narrow y).isTop = false := by
  have hand : (x.lb.isInf && x.ub.isInf) = false := hxt
  rw [Itv.narrow]
  simp only [hxb, hyb, Bool.or_self, Bool.false_eq_true, if_false]
  cases h1 : (x.lb.isInf && y.lb.isFin) <;> cases h2 : (x.ub.isInf && y.ub.isFin) <;>
    simp only [h1, h2, if_true, Bool.false_eq_true, reduceIte]
  · cases hxl : x.lb.isInf with
    | false => exact isTop_make_left_fin hxl
    | true =>
      have hxu : x.ub.isInf = false := by
        rw [hxl] at hand
        simpa using hand
      exact isTop_make_right_fin hxu
  · exact isTop_make_right_fin (isFin_isInf ((Bool.and_eq_true _ _).mp h2).2)
  · exact isTop_make_left_fin (isFin_isInf ((Bool.and_eq_true _ _).mp h1).2)
  · exact isTop_make_left_fin (isFin_isInf ((Bool.and_eq_true _ _).mp h1).2)

theorem wfT_iff {t : List (Nat × Itv Int)} :
    SepDom.wfT t = true ↔ ∀ e ∈ t, e.2.isTop = false ∧ e.2.isBot = false := by
  simp [SepDom.wfT, List.all_eq_true]

theorem lookupT_mem {t : List (Nat × Itv Int)} {k : Nat} {v : Itv Int}
    (h : lookupT t k = some v) : (k, v) ∈ t := by
  induction t with
  | nil => simp [lookupT] at h
  | cons e t ih =>
    rw [lookupT] at h
    split at h
    · rename_i he
      have hev : e = (k, v) := by
        cases e
        simp_all
      rw [← hev]
      exact List.mem_cons_self _ _
    · exact List.mem_cons_of_mem _ (ih h)

theorem wfT_removeT {t : List (Nat × Itv Int)} {k : Nat}
    (h : SepDom.wfT t = true) : SepDom.wfT (removeT t k) = true := by
  rw [wfT_iff] at h ⊢
  intro e he
  exact h e (List.mem_of_mem_filter he)

theorem mem_insertT {t : List (Nat × Itv Int)} {k : Nat} {v : Itv Int} {e : Nat × Itv Int}
    (h : e ∈ insertT t k v) : e ∈ t ∨ e = (k, v) := by
  induction t with
  | nil =>
    rw [insertT] at h
    rcases List.mem_singleton.mp h with h1
    exact Or.inr h1
  | cons f t ih =>
    rw [insertT] at h
    split at h
    · rcases List.mem_cons.mp h with h1 | h1
      · exact Or.inr h1
      · exact Or.inl (List.mem_cons_of_mem _ h1)
    · rcases List.mem_cons.mp h with h1 | h1
      · exact Or.inl (h1 ▸ List.mem_cons_self _ _)
      · rcases ih h1 with h2 | h2
        · exact Or.inl (List.mem_cons_of_mem _ h2)
        · exact Or.inr h2

theorem wfT_insertT {t : List (Nat × Itv Int)} {k : Nat} {v : Itv Int}
    (ht : SepDom.wfT t = true) (hv1 : v.isTop = false) (hv2 : v.isBot = false) :
    SepDom.wfT (insertT t k v) = true := by
  rw [wfT_iff] at ht ⊢
  intro e he
  rcases mem_insertT he with h | h
  · exact ht e h
  · rw [h]
    exact ⟨hv1, hv2⟩

/-- The property of a pointwise binary operator needed to preserve the
separate-domain invariant: on well-formed values, a some result is
neither top nor bottom. -/
def goodOp (f : Itv Int → Itv Int → Option (Itv Int)) : Prop :=
  ∀ x y z, x.isTop = false → x.isBot = false → y.isTop = false → y.isBot = false →
    f x y = some z → z.isTop = false ∧ z.isBot = false

theorem mergeAbsorbing_wf {f : Itv Int → Itv Int → Option (Itv Int)}
    {t1 t2 : List (Nat × Itv Int)} (hf : goodOp f)
    (h1 : SepDom.wfT t1 = true) (h2 : SepDom.wfT t2 = true) :
    SepDom.wfT (mergeAbsorbing f t1 t2) = true := by
  rw [wfT_iff] at h1 h2 ⊢
  intro e he
  rw [mergeAbsorbing] at he
  obtain ⟨a, ha, hfa⟩ := List.mem_filterMap.mp he
  split at hfa
  · rename_i y hl
    simp only [Option.map_eq_some'] at hfa
    obtain ⟨z, hz, hze⟩ := hfa
    obtain ⟨w1, w2⟩ := h1 a ha
    obtain ⟨v1, v2⟩ := h2 (a.1, y) (lookupT_mem hl)
    rw [← hze]
    exact hf a.2 y z w1 w2 v1 v2 hz
  · cases hfa

theorem mergeKeepAux_wf {f : Itv Int → Itv Int → Option (Itv Int)}
    {t1 t2 : List (Nat × Itv Int)} {r : List (Nat × Itv Int)} (hf : goodOp f)
    (h1 : SepDom.wfT t1 = true) (h2 : SepDom.wfT t2 = true)
    (h : mergeKeepAux f t1 t2 = some r) : SepDom.wfT r = true := by
  induction t1 generalizing r with
  | nil =>
    rw [mergeKeepAux] at h
    cases h
    rfl
  | cons e t ih =>
    have he : e.2.isTop = false ∧ e.2.isBot = false := (wfT_iff.mp h1) e (List.mem_cons_self _ _)
    have ht : SepDom.wfT t = true := by
      rw [wfT_iff] at h1 ⊢
      intro a ha
      exact h1 a (List.mem_cons_of_mem _ ha)
    rw [mergeKeepAux] at h
    split at h
    · rename_i y hl
      split at h
      · rename_i z hz
        simp only [Option.map_eq_some'] at h
        obtain ⟨r0, hr, hrr⟩ := h
        obtain ⟨v1, v2⟩ := (wfT_iff.mp h2) (e.1, y) (lookupT_mem hl)
        have hz2 := hf e.2 y z he.1 he.2 v1 v2 hz
        rw [← hrr, wfT_iff]
        intro a ha
        rcases List.mem_cons.mp ha with h3 | h3
        · rw [h3]
          exact hz2
        · exact (wfT_iff.mp (ih ht hr)) a h3
      · cases h
    · rename_i hl
      simp only [Option.map_eq_some'] at h
      obtain ⟨r0, hr, hrr⟩ := h
      rw [← hrr, wfT_iff]
      intro a ha
      rcases List.mem_cons.mp ha with h3 | h3
      · rw [h3]
        exact he
      · exact (wfT_iff.mp (ih ht hr)) a h3

theorem mergeKeeping_wf {f : Itv Int → Itv Int → Option (Itv Int)}
    {t1 t2 : List (Nat × Itv Int)} {r : List (Nat × Itv Int)} (hf : goodOp f)
    (h1 : SepDom.wfT t1 = true) (h2 : SepDom.wfT t2 = true)
    (h : mergeKeeping f t1 t2 = some r) : SepDom.wfT r = true := by
  rw [mergeKeeping] at h
  cases hr : mergeKeepAux f t1 t2 with
  | none =>
    rw [hr] at h
    simp at h
  | some r0 =>
    rw [hr] at h
    simp at h
    rw [← h, wfT_iff]
    intro a ha
    rcases List.mem_append.mp ha with h3 | h3
    · exact (wfT_iff.mp (mergeKeepAux_wf hf h1 h2 hr)) a h3
    · exact (wfT_iff.mp h2) a (List.mem_of_mem_filter h3)

theorem joinOpApply_good : goodOp joinOpApply := by
  intro x y z hxt hxb hyt hyb hz
  rw [joinOpApply] at hz
  split at hz
  · simp at hz
  · rename_i htop
    cases hz
    exact ⟨Bool.not_eq_true _ ▸ Bool.of_not_eq_true htop, join_not_isBot hxb hyb⟩

theorem widenOpApply_good : goodOp widenOpApply := by
  intro x y z hxt hxb hyt hyb hz
  rw [widenOpApply] at hz
  split at hz
  · simp at hz
  · rename_i htop
    cases hz
    exact ⟨Bool.not_eq_true _ ▸ Bool.of_not_eq_true htop, widen_not_isBot hxb hyb⟩

theorem meetOpApply_good : goodOp meetOpApply := by
  intro x y z hxt hxb hyt hyb hz
  rw [meetOpApply] at hz
  split at hz
  · simp at hz
  · cases hz
    exact ⟨meet_not_isTop hxb hxt hyb hyt, Bool.not_eq_true _ ▸ Bool.of_not_eq_true (by assumption)⟩

theorem narrowOpApply_good : goodOp narrowOpApply := by
  intro x y z hxt hxb hyt hyb hz
  rw [narrowOpApply] at hz
  split at hz
  · simp at hz
  · cases hz
    exact ⟨narrow_not_isTop hxb hyb hxt, Bool.not_eq_true _ ▸ Bool.of_not_eq_true (by assumption)⟩

/-- C2: well-formedness of the non-bottom separate domain (no key maps
to the value top, none to the value bottom) is preserved by set,
forget, join, meet, widening and narrowing, for the interval
instantiation of the value lattice. -/
theorem claim_C2_sepdom_wf (s1 s2 : SepDom) (k : Nat) (v : Itv Int)
    (h1 : s1.wf = true) (h2 : s2.wf = true) :
    (s1.set k v).wf = true ∧ (s1.forget k).wf = true ∧ (s1.join s2).wf = true ∧
    (s1.meet s2).wf = true ∧ (s1.widen s2).wf = true ∧ (s1.narrow s2).wf = true := by
  refine ⟨?_, ?_, ?_, ?_, ?_, ?_⟩
  · cases s1 with
    | sbot => rfl
    | tree t =>
      rw [SepDom.set]
      split
      · rfl
      · split
        · exact wfT_removeT h1
        · rename_i hb ht
          exact wfT_insertT h1 (Bool.not_eq_true _ ▸ Bool.of_not_eq_true ht)
            (Bool.not_eq_true _ ▸ Bool.of_not_eq_true hb)
  · cases s1 with
    | sbot => rfl
    | tree t => exact wfT_removeT h1
  · cases s1 with
    | sbot => simpa [SepDom.join] using h2
    | tree t1 =>
      cases s2 with
      | sbot => simpa [SepDom.join] using h1
      | tree t2 => exact mergeAbsorbing_wf joinOpApply_good h1 h2
  · cases s1 with
    | sbot => cases s2 <;> rfl
    | tree t1 =>
      cases s2 with
      | sbot => rfl
      | tree t2 =>
        rw [SepDom.meet]
        cases hm : mergeKeeping meetOpApply t1 t2 with
        | none => rfl
        | some r => exact mergeKeeping_wf meetOpApply_good h1 h2 hm
  · cases s1 with
    | sbot => simpa [SepDom.widen] using h2
    | tree t1 =>
      cases s2 with
      | sbot => simpa [SepDom.widen] using h1
      | tree t2 => exact mergeAbsorbing_wf widenOpApply_good h1 h2
  · cases s1 with
    | sbot => cases s2 <;> rfl
    | tree t1 =>
      cases s2 with
      | sbot => rfl
      | tree t2 =>
        rw [SepDom.narrow]
        cases hm : mergeKeeping narrowOpApply t1 t2 with
        | none => rfl
        | some r => exact mergeKeeping_wf narrowOpApply_good h1 h2 hm

/-- C2 witness: invariant preservation at the concrete states
s1 = \x7b0 -\> [1, 3]\x7d, s2 = \x7b0 -\> [2, 9]; 1 -\> [0, +oo)\x7d with
k = 5, v = [7, 8]. -/
theorem claim_C2_witness :
    ((SepDom.tree [(0, ⟨.fin 1, .fin 3⟩)]).set 5 ⟨.fin 7, .fin 8⟩).wf = true ∧
    ((SepDom.tree [(0, ⟨.fin 1, .fin 3⟩)]).forget 5).wf = true ∧
    ((SepDom.tree [(0, ⟨.fin 1, .fin 3⟩)]).join
      (SepDom.tree [(0, ⟨.fin 2, .fin 9⟩), (1, ⟨.fin 0, .pinf⟩)])).wf = true ∧
    ((SepDom.tree [(0, ⟨.fin 1, .fin 3⟩)]).meet
      (SepDom.tree [(0, ⟨.fin 2, .fin 9⟩), (1, ⟨.fin 0, .pinf⟩)])).wf = true ∧
    ((SepDom.tree [(0, ⟨.fin 1, .fin 3⟩)]).widen
      (SepDom.tree [(0, ⟨.fin 2, .fin 9⟩), (1, ⟨.fin 0, .pinf⟩)])).wf = true ∧
    ((SepDom.tree [(0, ⟨.fin 1, .fin 3⟩)]).narrow
      (SepDom.tree [(0, ⟨.fin 2, .fin 9⟩), (1, ⟨.fin 0, .pinf⟩)])).wf = true :=
  claim_C2_sepdom_wf (SepDom.tree [(0, ⟨.fin 1, .fin 3⟩)])
    (SepDom.tree [(0, ⟨.fin 2, .fin 9⟩), (1, ⟨.fin 0, .pinf⟩)]) 5 ⟨.fin 7, .fin 8⟩
    (by decide) (by decide)

/-- Modelled from the spec: the shapes of linear constraints emitted by
interval_domain::to_linear_constraint_system (the linear-constraint AST
is an external collaborator): the false sentinel, v \>= n and
v \<= n. -/
inductive LinCst where
  | cfalse
  | cge (v : Nat) (n : Int)
  | cle (v : Nat) (n : Int)
deriving DecidableEq, Repr

/-- Embedding of the loop body of to_linear_constraint_system: for one
binding, the constraint v \>= lb when lb is finite followed by v \<= ub
when ub is finite. -/
def entryCsts (e : Nat × Itv Int) : List LinCst :=
  (match e.2.lb.number with
   | some n => [LinCst.cge e.1 n]
   | none => []) ++
  (match e.2.ub.number with
   | some n => [LinCst.cle e.1 n]
   | none => [])

/-- The constraint accumulation loop of to_linear_constraint_system over
the environment bindings. -/
def treeCsts : List (Nat × Itv Int) → List LinCst
  | [] => []
  | e :: t => entryCsts e ++ treeCsts t

/-- Embedding of interval_domain::to_linear_constraint_system: the false
sentinel on a bottom state, otherwise the per-binding constraints
accumulated over the environment. -/
def toLinearConstraintSystem : SepDom → List LinCst
  | .sbot => [LinCst.cfalse]
  | .tree t => treeCsts t

/-- C8: export of the interval domain to linear constraints: a bottom
state yields exactly the false constraint; a non-bottom state yields,
for each variable v bound in the map to the interval [l, u], the
constraint v \>= l when l is finite and v \<= u when u is finite, and
nothing else. -/
theorem claim_C8_export (t : List (Nat × Itv Int)) (c : LinCst) :
    toLinearConstraintSystem SepDom.sbot = [LinCst.cfalse] ∧
    (c ∈ toLinearConstraintSystem (SepDom.tree t) ↔
      ∃ v i, (v, i) ∈ t ∧
        ((∃ n, i.lb.number = some n ∧ c = LinCst.cge v n) ∨
         (∃ n, i.ub.number = some n ∧ c = LinCst.cle v n))) := by
  refine ⟨rfl, ?_⟩
  have hentry : ∀ (e : Nat × Itv Int), c ∈ entryCsts e ↔
      ((∃ n, e.2.lb.number = some n ∧ c = LinCst.cge e.1 n) ∨
       (∃ n, e.2.ub.number = some n ∧ c = LinCst.cle e.1 n)) := by
    intro e
    rw [entryCsts]
    cases hl : e.2.lb.number <;> cases hu : e.2.ub.number <;> simp
  induction t with
  | nil => simp [toLinearConstraintSystem, treeCsts]
  | cons e t ih =>
    have expand : toLinearConstraintSystem (SepDom.tree (e :: t)) =
        entryCsts e ++ treeCsts t := rfl
    have expand2 : toLinearConstraintSystem (SepDom.tree t) = treeCsts t := rfl
    rw [expand, List.mem_append, hentry e]
    rw [expand2] at ih
    constructor
    · rintro (h | h)
      · exact ⟨e.1, e.2, List.mem_cons_self _ _, h⟩
      · obtain ⟨v, i, hm, hp⟩ := ih.mp h
        exact ⟨v, i, List.mem_cons_of_mem _ hm, hp⟩
    · rintro ⟨v, i, hm, hp⟩
      rcases List.mem_cons.mp hm with h1 | h1
      · left
        have h2 : e = (v, i) := h1.symm
        rw [h2]
        exact hp
      · right
        exact ih.mpr ⟨v, i, h1, hp⟩

/-- Modelled from the spec: linear expressions are iterable as
(coefficient, variable) pairs plus a constant term (the expression AST
is an external collaborator). -/
structure LinExp where
  cst : Int
  terms : List (Int × Nat)
deriving DecidableEq, Repr

/-- Modelled from the spec: linear_expression::get_variable returns the
sole variable when the expression is exactly 1·v. -/
def LinExp.getVariable (e : LinExp) : Option Nat :=
  match e.terms with
  | [(c, v)] => if c = 1 ∧ e.cst = 0 then some v else none
  | _ => none

/-- The linear expression consisting of the single variable v (the
implicit conversion from a variable to a linear expression used by the
conversion transfer function). -/
def LinExp.ofVar (v : Nat) : LinExp := ⟨0, [(1, v)]⟩

/-- Embedding of the evaluation loop shared by
interval_domain::operator[](linear_expression) and assign: the constant
term interval plus the coefficient-interval products of the
variables. -/
def evalLE (s : SepDom) (e : LinExp) : Itv Int :=
  e.terms.foldl (fun r p => iAdd r (iMul (Itv.ofNum p.1) (s.lookup p.2))) (Itv.ofNum e.cst)

/-- Embedding of interval_domain::assign: when the expression is a sole
variable, copy its interval into the target; otherwise evaluate the
expression and set the target to the result. -/
def assign (s : SepDom) (x : Nat) (e : LinExp) : SepDom :=
  match e.getVariable with
  | some v => s.set x (s.lookup v)
  | none => s.set x (evalLE s e)

/-- Modelled from the spec: the integer-conversion operation kinds of
the abstract-domain contract (crab::domains::int_conv_operation_t is
declared outside the provided sources); the interval domain ignores
them together with any bit-widths. -/
inductive IntConvOp where
  | trunc
  | sext
  | zext
deriving DecidableEq, Repr

/-- Embedding of interval_domain::apply(int_conv_operation_t, dst, src):
the operation kind is ignored and the body delegates to
assign(dst, src). -/
def applyIntConv (op : IntConvOp) (s : SepDom) (dst src : Nat) : SepDom :=
  assign s dst (LinExp.ofVar src)

/-- C9: the integer-conversion transfer function is exactly assignment:
for every state, conversion kind and variables, apply(op, dst, src)
equals assign(dst, src) (which copies the source interval), and the
conversion kind never influences the result. -/
theorem claim_C9_int_conv (op op2 : IntConvOp) (s : SepDom) (dst src : Nat) :
    applyIntConv op s dst src = applyIntConv op2 s dst src ∧
    applyIntConv op s dst src = assign s dst (LinExp.ofVar src) ∧
    applyIntConv op s dst src = s.set dst (s.lookup src) := by
  refine ⟨rfl, rfl, ?_⟩
  rw [applyIntConv, assign]
  have hv : (LinExp.ofVar src).getVariable = some src := by
    simp [LinExp.getVariable, LinExp.ofVar]
  rw [hv]

end CrabIkos
